import Mathlib

/-!
# Verification of the markdown-renderer conversion core

A shallow embedding, over `List Char` strings, of the string utilities,
tokenizer extensions and restorer of the `markdown-renderer` repository
(`src/utils/StringUtils.js`, `src/processor/Rules.js`,
`src/processor/renderer/Tokenizer.js`, the restorer module and the inline
text-concatenation helper), together with proofs and refutations of the
specification's testable properties.

JavaScript strings are modelled as `List Char`; JavaScript `undefined` as
`Option`; thrown exceptions as `Except String`.
-/

set_option autoImplicit false

/-- JavaScript strings, modelled as lists of characters. -/
abbrev Str := List Char

/-- The two-character separator `"\n\n"`. -/
def nn : Str := ['\n', '\n']

/-- Membership test of the JavaScript `\s` (whitespace) character class,
restricted to the characters that can occur in this development. -/
def isJsWs (c : Char) : Bool :=
  c = ' ' || c = '\t' || c = '\n' || c = '\r' || c = '\x0b' || c = '\x0c' || c = ' '

/-- `item.replace(rules.renderer.other.trimStartPattern, "")`:
the pattern is `/^\s*/`, so this drops the leading whitespace run. -/
def trimStart (l : Str) : Str := l.dropWhile isJsWs

/-- Test of `rules.renderer.list.unorderedListItem`, the pattern `/^[*+-]\s+/`:
a `*`, `+` or `-` marker followed by at least one whitespace character. -/
def unorderedListItemTest (l : Str) : Bool :=
  match l with
  | c :: d :: _ => (c = '*' || c = '+' || c = '-') && isJsWs d
  | _ => false

/-- Test of `rules.renderer.list.orderedListItem`, the pattern `/^\d+\.\s+/`:
one or more digits, a period, then at least one whitespace character. -/
def orderedListItemTest (l : Str) : Bool :=
  (l.takeWhile Char.isDigit ≠ []) &&
    (match l.dropWhile Char.isDigit with
     | '.' :: c :: _ => isJsWs c
     | _ => false)

/-- The list type strings `"unordered"` / `"ordered"` used by `mergeListItems`. -/
inductive LType where
  | unordered
  | ordered
deriving DecidableEq

/-- The list-type classification performed at the top of the `mergeListItems`
loop body: trim leading whitespace, then test the unordered marker pattern,
then the ordered one. -/
def itemListType (item : Str) : Option LType :=
  let trimmed := trimStart item
  if unorderedListItemTest trimmed then some .unordered
  else if orderedListItemTest trimmed then some .ordered
  else none

/-- `arr.join(sep)` on a list of strings. -/
def joinSep (sep : Str) : List Str → Str
  | [] => []
  | [x] => x
  | x :: xs => x ++ sep ++ joinSep sep xs

/-- `flushBuffer` from `mergeListItems`: an accumulated non-empty buffer is
emitted as a single entry joined with `"\n\n"`; an empty buffer emits nothing. -/
def flushBuffer (buffer : List Str) : List Str :=
  if buffer = [] then [] else [joinSep nn buffer]

/-- The loop of `mergeListItems` over the remaining items, carrying the
`currentType` and `buffer` mutable variables as arguments. -/
def mergeAux : List Str → Option LType → List Str → List Str
  | [], _, buffer => flushBuffer buffer
  | item :: rest, currentType, buffer =>
    match itemListType item with
    | some ty =>
      if some ty = currentType then mergeAux rest currentType (buffer ++ [item])
      else flushBuffer buffer ++ mergeAux rest (some ty) [item]
    | none => flushBuffer buffer ++ (item :: mergeAux rest none [])

/-- `mergeListItems` from `src/utils/StringUtils.js`: merges consecutive list
items of the same type into a single entry joined by `"\n\n"`. -/
def mergeListItems (arr : List Str) : List Str :=
  mergeAux arr none []

example :
    mergeListItems ["* a".data, "* b".data, "plain text".data, "1. c".data] =
      ["* a\n\n* b".data, "plain text".data, "1. c".data] := by decide

/-- Concatenation of a list of entries, each preceded by the `"\n\n"`
separator; the "tail" view of `joinSep nn`. -/
def joinTail : List Str → Str
  | [] => []
  | x :: xs => nn ++ x ++ joinTail xs

theorem joinSep_nn_cons (x : Str) (l : List Str) :
    joinSep nn (x :: l) = x ++ joinTail l := by
  induction l generalizing x with
  | nil => simp [joinSep, joinTail]
  | cons y ys ih => simp [joinSep, joinTail, ih y, List.append_assoc]

theorem joinTail_append (l1 l2 : List Str) :
    joinTail (l1 ++ l2) = joinTail l1 ++ joinTail l2 := by
  induction l1 with
  | nil => simp [joinTail]
  | cons x xs ih => simp [joinTail, ih, List.append_assoc]

theorem joinTail_flushBuffer (buf l : List Str) :
    joinTail (flushBuffer buf ++ l) = joinTail (buf ++ l) := by
  by_cases h : buf = []
  · simp [h, flushBuffer]
  · obtain ⟨b, bs, rfl⟩ : ∃ b bs, buf = b :: bs := by
      cases buf with
      | nil => exact absurd rfl h
      | cons b bs => exact ⟨b, bs, rfl⟩
    simp [flushBuffer, joinTail, joinSep_nn_cons, joinTail_append, List.append_assoc]

theorem mergeAux_ne_nil (items : List Str) (ct : Option LType) (buf : List Str)
    (h : buf ≠ []) : mergeAux items ct buf ≠ [] := by
  induction items generalizing ct buf with
  | nil =>
    simp [mergeAux, flushBuffer, h]
  | cons item rest ih =>
    simp only [mergeAux]
    match itemListType item with
    | some ty =>
      simp only
      split
      · exact ih ct (buf ++ [item]) (by simp)
      · simp [flushBuffer, h]
    | none =>
      simp

theorem mergeAux_joinTail (items : List Str) (ct : Option LType) (buf : List Str) :
    joinTail (mergeAux items ct buf) = joinTail (buf ++ items) := by
  induction items generalizing ct buf with
  | nil => simpa using joinTail_flushBuffer buf []
  | cons item rest ih =>
    simp only [mergeAux]
    match itemListType item with
    | some ty =>
      simp only
      split
      · rw [ih ct (buf ++ [item])]
        simp [List.append_assoc]
      · rw [joinTail_flushBuffer buf (mergeAux rest (some ty) [item]),
          joinTail_append, joinTail_append, ih (some ty) [item]]
        simp [joinTail, joinTail_append]
    | none =>
      simp only
      rw [joinTail_flushBuffer buf (item :: mergeAux rest none []),
        joinTail_append, joinTail_append]
      simp [joinTail, ih none []]

theorem mergeListItems_cons_ne (a : Str) (rest : List Str) :
    mergeListItems (a :: rest) ≠ [] := by
  simp only [mergeListItems, mergeAux]
  match itemListType a with
  | some ty =>
    simp only [flushBuffer, reduceIte]
    exact fun h => mergeAux_ne_nil rest (some ty) [a] (by simp) (by simpa using h)
  | none => simp

theorem joinTail_eq_nn_joinSep (l : List Str) (h : l ≠ []) :
    joinTail l = nn ++ joinSep nn l := by
  cases l with
  | nil => exact absurd rfl h
  | cons x xs => simp [joinTail, joinSep_nn_cons, List.append_assoc]

/-! ## Blockquote empty-line placeholder (`Tokenizer.js`, `addEmptyPlaceholder`) -/

/-- Test of `rules.renderer.blockquote.blockquoteEmptyLine`, the pattern
`/^>\s*$/`: a single `>` followed only by whitespace. -/
def blockquoteEmptyLineTest (l : Str) : Bool :=
  match l with
  | '>' :: rest => rest.all isJsWs
  | _ => false

/-- One iteration of the `addEmptyPlaceholder` loop body at index `i`:
if `lines[i]` and `lines[i + 1]` both match the empty-blockquote pattern,
`"[EMPTY]"` is appended to `lines[i]`. -/
def aepStep (lines : List Str) (i : Nat) : List Str :=
  let current := lines.getD i []
  let next := lines.getD (i + 1) []
  if blockquoteEmptyLineTest current && blockquoteEmptyLineTest next then
    lines.set i (current ++ "[EMPTY]".data)
  else lines

/-- The `addEmptyPlaceholder` loop, walking `i` downward to `0` over the
(mutated) array. -/
def aepLoop (lines : List Str) : Nat → List Str
  | 0 => aepStep lines 0
  | i + 1 => aepLoop (aepStep lines (i + 1)) i

/-- `addEmptyPlaceholder` from `src/processor/renderer/Tokenizer.js`: traverses
the blockquote lines from the second-to-last element backward, appending
`"[EMPTY]"` to a bare-`>` line whose successor is also a bare-`>` line. -/
def addEmptyPlaceholder (lines : List Str) : List Str :=
  match lines.length with
  | 0 => lines
  | 1 => lines
  | n + 2 => aepLoop lines n

example : addEmptyPlaceholder ["> a".data, ">".data, "> b".data] =
    ["> a".data, ">".data, "> b".data] := by decide

example : addEmptyPlaceholder ["> a".data, ">".data, ">".data, "> b".data] =
    ["> a".data, ">[EMPTY]".data, ">".data, "> b".data] := by decide

/-! ## Soft line-wrap preprocessing (`StringUtils.js`) -/

/-- Index of the first occurrence of `pat` as a contiguous substring. -/
def indexOfSub (pat : Str) (l : Str) : Option Nat :=
  if pat.isPrefixOf l then some 0
  else
    match l with
    | [] => none
    | _ :: rest => (indexOfSub pat rest).map (· + 1)

/-- `str.includes(pat)`. -/
def containsSub (pat l : Str) : Bool := (indexOfSub pat l).isSome

/-- The triple-backtick fence delimiter. -/
def fence : Str := ['\x60', '\x60', '\x60']

/-- Positions of the first match of `/(```[\s\S]*?```)/`: the earliest triple
backtick together with the earliest closing triple backtick starting at least
three characters later. The match spans indices `[i, j + 3)`. -/
def findFencePair (l : Str) : Option (Nat × Nat) :=
  (indexOfSub fence l).bind fun i =>
    (indexOfSub fence (l.drop (i + 3))).map fun k => (i, i + 3 + k)

theorem indexOfSub_isPrefix (pat : Str) :
    ∀ (l : Str) (i : Nat), indexOfSub pat l = some i → pat.isPrefixOf (l.drop i) := by
  intro l
  induction l with
  | nil =>
    intro i h
    rw [indexOfSub] at h
    split at h
    case isTrue hp => cases h; simpa using hp
    case isFalse hp => simp at h
  | cons c rest ih =>
    intro i h
    rw [indexOfSub] at h
    split at h
    case isTrue hp => cases h; simpa using hp
    case isFalse hp =>
      simp only [Option.map_eq_some'] at h
      obtain ⟨i', hi', rfl⟩ := h
      simpa using ih i' hi'

theorem indexOfSub_le_length (pat : Str) (hp : pat ≠ []) (l : Str) (i : Nat)
    (h : indexOfSub pat l = some i) : i + pat.length ≤ l.length := by
  have hpre : pat <+: l.drop i := by
    simpa [List.isPrefixOf_iff_prefix] using indexOfSub_isPrefix pat l i h
  have hlen : pat.length ≤ (l.drop i).length := hpre.length_le
  have hi : i ≤ l.length := by
    by_contra hc
    push_neg at hc
    rw [List.drop_eq_nil_of_le (le_of_lt hc)] at hpre
    exact hp (List.prefix_nil.mp hpre)
  simp only [List.length_drop] at hlen
  omega


theorem findFencePair_bound (l : Str) (i j : Nat)
    (h : findFencePair l = some (i, j)) : i + 3 ≤ j ∧ j + 3 ≤ l.length := by
  simp only [findFencePair, Option.bind_eq_some, Option.map_eq_some'] at h
  obtain ⟨i', h1, k, h2, hk⟩ := h
  obtain ⟨rfl, rfl⟩ : i' = i ∧ i' + 3 + k = j := by
    have := Prod.mk.injEq .. ▸ hk
    exact ⟨(Prod.mk.inj hk).1, (Prod.mk.inj hk).2⟩
  have hb2 := indexOfSub_le_length fence (by decide) _ k h2
  simp only [List.length_drop, fence, List.length_cons, List.length_nil] at hb2
  omega

/-- The scan of `text.split(rules.renderer.code.pattern)`, structurally
recursive on a fuel argument: each found fence pair consumes at least six
characters, so any fuel of at least `l.length + 1` is adequate. -/
def splitCodeFenceGo : Nat → Str → List Str
  | 0, l => [l]
  | fuel + 1, l =>
    match findFencePair l with
    | none => [l]
    | some (i, j) =>
      l.take i :: (l.drop i).take (j + 3 - i) :: splitCodeFenceGo fuel (l.drop (j + 3))

/-- `text.split(rules.renderer.code.pattern)`: splits on lazy fenced-code
matches, keeping the matches themselves (the pattern has a capture group), so
odd-indexed entries of the result are the code blocks. -/
def splitCodeFence (l : Str) : List Str :=
  splitCodeFenceGo (l.length + 1) l

/-- `str.lastIndexOf("\n", offset - 1) + 1 .. offset`: the content of the line
ending at position `offset`, i.e. the trailing run of non-newline characters
of `l.take offset`. -/
def lastLine (l : Str) : Str := (l.reverse.takeWhile (fun c => c ≠ '\n')).reverse

/-- `getLevel` from `src/utils/StringUtils.js`: the number of `>` characters
anywhere in the line after trimming leading whitespace
(`trimmed.match(/>/g)` counts every occurrence). -/
def getLevel (line : Str) : Nat := (trimStart line).count '>'

/-- The maximal match of `rules.renderer.blockquote.blockQuotePattern`,
`/^(?:(>\s*)+)/`: a greedy run of `>` markers each followed by a whitespace
run — equivalently, by the regular identity `(a b*)+ = a (a|b)*`, a leading
`>` followed by the longest run of `>` and whitespace characters. -/
def gtRun : Str → Str
  | '>' :: rest => '>' :: rest.takeWhile (fun c => c = '>' || isJsWs c)
  | _ => []

/-- `isValidLine` from `src/utils/StringUtils.js`: an empty line is invalid; a
blockquote line must keep, after its `>` run, either a two-space run or a
non-whitespace character; any other non-empty line is valid. -/
def isValidLine (line : Str) : Bool :=
  if line.length = 0 then false
  else
    let trimmed := trimStart line
    match trimmed with
    | '>' :: _ =>
      let gtContent := gtRun trimmed
      let remaining := trimmed.drop gtContent.length
      containsSub [' ', ' '] remaining || remaining.any (fun c => !(isJsWs c))
    | _ => true

/-- Test of `rules.renderer.list.pattern`, `/^\s*([-*+]|\d+\.\s)/`: after
leading whitespace, either a bare `-`/`*`/`+` marker or an ordered-list
marker `digits.` followed by one whitespace character. -/
def listPatternTest (l : Str) : Bool :=
  let t := trimStart l
  (match t with
   | c :: _ => c = '-' || c = '*' || c = '+'
   | [] => false) || orderedListItemTest t

/-- The replacement callback of `replaceWithSoftLineWraps` for the newline at
position `offset` of segment `seg`: `true` exactly when the newline is
replaced by the soft break `"  \n"`. -/
def softWrapCond (seg : Str) (offset : Nat) : Bool :=
  let currentLine := lastLine (seg.take offset)
  if !(isValidLine currentLine) then false
  else
    let nextPos := offset + 1
    if seg.get? nextPos = some '\n' then false
    else
      let nextLine := (seg.drop nextPos).takeWhile (fun c => c ≠ '\n')
      if listPatternTest nextLine then false
      else if seg.get? nextPos = some '>' then
        let afterGT := nextLine.drop 1
        if !(afterGT.any (fun c => !(isJsWs c)) || containsSub [' ', ' '] afterGT) then
          false
        else if getLevel currentLine ≠ getLevel nextLine then false
        else true
      else true

/-- The character-by-character traversal of `seg.replace(/\n/g, cb)`: the
first argument is the whole segment (for the callback's offset-based slices),
the second the remaining characters from position `i` on. Every newline whose
callback condition holds becomes `"  \n"`. -/
def softWrapGo (seg : Str) : Str → Nat → Str
  | [], _ => []
  | c :: rest, i =>
    (if c = '\n' then
      (if softWrapCond seg i then [' ', ' ', '\n'] else ['\n'])
     else [c]) ++ softWrapGo seg rest (i + 1)

/-- One non-code segment of `replaceWithSoftLineWraps`, after newline
replacement. -/
def softWrapSegment (seg : Str) : Str := softWrapGo seg seg 0

/-- Concatenation of a list of strings (`codeBlockSplit.join("")`). -/
def catAll : List Str → Str
  | [] => []
  | x :: xs => x ++ catAll xs

/-- The indexed loop of `replaceWithSoftLineWraps`: odd-indexed segments (the
code blocks) are skipped, even-indexed segments get soft line wraps. The
Boolean argument records whether the current index is odd. -/
def applyWraps : List Str → Bool → List Str
  | [], _ => []
  | seg :: rest, isOdd =>
    (if isOdd then seg else softWrapSegment seg) :: applyWraps rest (!isOdd)

/-- `replaceWithSoftLineWraps` from `src/utils/StringUtils.js`. -/
def replaceWithSoftLineWraps (text : Str) : Str :=
  catAll (applyWraps (splitCodeFence text) false)

example : replaceWithSoftLineWraps "a\nb".data = "a  \nb".data := by decide

example : replaceWithSoftLineWraps "a  \nb".data = "a    \nb".data := by decide

theorem softWrapGo_id (seg : Str) :
    ∀ (rest : Str) (i : Nat), '\n' ∉ rest → softWrapGo seg rest i = rest := by
  intro rest
  induction rest with
  | nil => intro i _; rfl
  | cons c cs ih =>
    intro i h
    have hc : c ≠ '\n' := fun hc => h (hc ▸ List.mem_cons_self c cs)
    have hcs : '\n' ∉ cs := fun hm => h (List.mem_cons_of_mem c hm)
    simp [softWrapGo, hc, ih (i + 1) hcs]

theorem softWrapSegment_id (seg : Str) (h : '\n' ∉ seg) :
    softWrapSegment seg = seg :=
  softWrapGo_id seg seg 0 h

theorem splitCodeFenceGo_mem (fuel : Nat) :
    ∀ (l seg : Str), seg ∈ splitCodeFenceGo fuel l → ∀ c ∈ seg, c ∈ l := by
  induction fuel with
  | zero =>
    intro l seg hseg c hc
    simp only [splitCodeFenceGo, List.mem_singleton] at hseg
    exact hseg ▸ hc
  | succ fuel ih =>
    intro l seg hseg c hc
    rw [splitCodeFenceGo] at hseg
    cases h : findFencePair l with
    | none =>
      rw [h] at hseg
      simp only [List.mem_singleton] at hseg
      exact hseg ▸ hc
    | some ij =>
      obtain ⟨i, j⟩ := ij
      rw [h] at hseg
      simp only [List.mem_cons] at hseg
      rcases hseg with rfl | rfl | hseg
      · exact List.mem_of_mem_take hc
      · exact List.mem_of_mem_drop (List.mem_of_mem_take hc)
      · exact List.mem_of_mem_drop (ih (l.drop (j + 3)) seg hseg c hc)

theorem catAll_splitCodeFenceGo (fuel : Nat) :
    ∀ l : Str, catAll (splitCodeFenceGo fuel l) = l := by
  induction fuel with
  | zero => intro l; simp [splitCodeFenceGo, catAll]
  | succ fuel ih =>
    intro l
    rw [splitCodeFenceGo]
    cases h : findFencePair l with
    | none => simp [catAll]
    | some ij =>
      obtain ⟨i, j⟩ := ij
      have hb := findFencePair_bound l i j h
      simp only [catAll, ih, List.append_nil]
      have h2 : l.drop (j + 3) = (l.drop i).drop (j + 3 - i) := by
        rw [List.drop_drop]
        congr 1
        omega
      rw [h2, List.take_append_drop, List.take_append_drop]

/-- The even-indexed ("outside code") segments of the fence split are mapped
with `softWrapSegment`; when every segment is left unchanged the whole loop is
the identity. -/
theorem applyWraps_id (segs : List Str)
    (h : ∀ seg ∈ segs, softWrapSegment seg = seg) :
    ∀ b : Bool, applyWraps segs b = segs := by
  induction segs with
  | nil => intro b; rfl
  | cons seg rest ih =>
    intro b
    have hseg := h seg (List.mem_cons_self seg rest)
    have hrest := fun s hs => h s (List.mem_cons_of_mem seg hs)
    cases b <;> simp [applyWraps, hseg, ih hrest]

/-- On an input with no newline at all, `replaceWithSoftLineWraps` is the
identity: the fence split re-joins to the input and the newline-replacement
pass finds nothing to replace. -/
theorem replaceWithSoftLineWraps_no_newline (t : Str) (h : '\n' ∉ t) :
    replaceWithSoftLineWraps t = t := by
  rw [replaceWithSoftLineWraps, applyWraps_id, splitCodeFence, catAll_splitCodeFenceGo]
  intro seg hseg
  exact softWrapSegment_id seg fun hc =>
    h (splitCodeFenceGo_mem (t.length + 1) t seg hseg '\n' hc)

/-! ## `splitFromEnd` (`StringUtils.js`, regex version) -/

/-- The match positions of `/\n\n/g` collected by the repeated-`exec` loop:
non-overlapping, scanning left to right, `i` being the absolute position of
the current head. -/
def nnPositions : Str → Nat → List Nat
  | '\n' :: '\n' :: rest, i => i :: nnPositions rest (i + 2)
  | _ :: rest, i => nnPositions rest (i + 1)
  | [], _ => []

theorem nnPositions_cons (c : Char) (rest : Str) (i : Nat)
    (h : ¬(c = '\n' ∧ rest.head? = some '\n')) :
    nnPositions (c :: rest) i = nnPositions rest (i + 1) := by
  rw [nnPositions.eq_def]
  split
  · rename_i heq
    injection heq with h1 h2
    subst h1
    cases rest with
    | nil => simp at h2
    | cons d r =>
      injection h2 with h3 h4
      exact absurd ⟨rfl, by rw [h3]; rfl⟩ h
  · rename_i x xs j heq
    injection heq with h1 h2
    subst h2
    rfl
  · rename_i heq
    exact absurd heq (by simp)

theorem nnPositions_spec (l : Str) (i : Nat) :
    ∀ p ∈ nnPositions l i,
      i ≤ p ∧ l.get? (p - i) = some '\n' ∧ l.get? (p - i + 1) = some '\n' := by
  induction l, i using nnPositions.induct with
  | case1 rest i ih =>
    intro p hp
    rw [show nnPositions ('\n' :: '\n' :: rest) i = i :: nnPositions rest (i + 2)
      from rfl] at hp
    rcases List.mem_cons.mp hp with rfl | hp
    · exact ⟨le_refl p, by simp, by simp⟩
    · obtain ⟨h1, h2, h3⟩ := ih p hp
      refine ⟨by omega, ?_, ?_⟩
      · have he : p - i = (p - (i + 2)) + 2 := by omega
        rw [he]
        simpa using h2
      · have he : p - i + 1 = (p - (i + 2) + 1) + 2 := by omega
        rw [he]
        simpa using h3
  | case2 c rest i hne ih =>
    intro p hp
    have hok : ¬(c = '\n' ∧ rest.head? = some '\n') := by
      rintro ⟨rfl, hh⟩
      cases rest with
      | nil => simp at hh
      | cons d r =>
        simp only [List.head?_cons, Option.some.injEq] at hh
        exact hne r rfl (by rw [hh])
    rw [nnPositions_cons c rest i hok] at hp
    obtain ⟨h1, h2, h3⟩ := ih p hp
    refine ⟨by omega, ?_, ?_⟩
    · have he : p - i = (p - (i + 1)) + 1 := by omega
      rw [he]
      simpa using h2
    · have he : p - i + 1 = (p - (i + 1) + 1) + 1 := by omega
      rw [he]
      simpa using h3
  | case3 i => intro p hp; simp [nnPositions] at hp

theorem nnPositions_pairwise (l : Str) (i : Nat) :
    (nnPositions l i).Pairwise (fun a b => a + 2 ≤ b) := by
  induction l, i using nnPositions.induct with
  | case1 rest i ih =>
    rw [show nnPositions ('\n' :: '\n' :: rest) i = i :: nnPositions rest (i + 2)
      from rfl]
    exact List.pairwise_cons.mpr
      ⟨fun p hp => by have := (nnPositions_spec rest (i + 2) p hp).1; omega, ih⟩
  | case2 c rest i hne ih =>
    by_cases hok : c = '\n' ∧ rest.head? = some '\n'
    · obtain ⟨rfl, hh⟩ := hok
      cases rest with
      | nil => simp at hh
      | cons d r =>
        simp only [List.head?_cons, Option.some.injEq] at hh
        exact (hne r rfl (by rw [hh])).elim
    · rw [nnPositions_cons c rest i hok]
      exact ih
  | case3 i => simp [nnPositions]

/-- The scan of `rules.renderer.other.codeBlocksAndInlineCode`,
`/(```[\s\S]*?```|`[^`]*`)/g`, collecting `[start, end)` ranges of all code
blocks and inline code spans. Structurally recursive on a fuel argument;
every match or single-step advance consumes at least one character, so fuel
`l.length + 1` is adequate. At a triple backtick the lazy block alternative
is tried first; if it has no closing fence the inline alternative matches the
two leading backticks. An inline span is a backtick, a maximal run of
non-backticks, and a closing backtick; if no closing backtick exists the scan
finds no further match. -/
def codeSpansGo : Nat → Str → Nat → List (Nat × Nat)
  | 0, _, _ => []
  | _ + 1, [], _ => []
  | fuel + 1, '\x60' :: '\x60' :: '\x60' :: rest, p =>
    (match indexOfSub fence rest with
     | some k => (p, p + 6 + k) :: codeSpansGo fuel (rest.drop (k + 3)) (p + 6 + k)
     | none => (p, p + 2) :: codeSpansGo fuel ('\x60' :: rest) (p + 2))
  | fuel + 1, '\x60' :: '\x60' :: rest, p =>
    (p, p + 2) :: codeSpansGo fuel rest (p + 2)
  | fuel + 1, '\x60' :: rest, p =>
    (match rest.dropWhile (fun c => c ≠ '\x60') with
     | '\x60' :: rest2 =>
       let run := (rest.takeWhile (fun c => c ≠ '\x60')).length
       (p, p + run + 2) :: codeSpansGo fuel rest2 (p + run + 2)
     | _ => [])
  | fuel + 1, _ :: rest, p => codeSpansGo fuel rest (p + 1)

/-- All `[start, end)` ranges of fenced code blocks and inline code spans of
`str` (step 1 of `splitFromEnd`). -/
def codeSpans (l : Str) : List (Nat × Nat) :=
  codeSpansGo (l.length + 1) l 0

/-- Insertion into a descending list; `x` goes before the first element it is
greater than or equal to. -/
def insertDesc (x : Nat) : List Nat → List Nat
  | [] => [x]
  | y :: ys => if x ≥ y then x :: y :: ys else y :: insertDesc x ys

/-- `positions.sort((a, b) => b - a)`: sorting into descending order. -/
def sortDesc : List Nat → List Nat
  | [] => []
  | x :: xs => insertDesc x (sortDesc xs)

theorem insertDesc_all_lt (x : Nat) :
    ∀ (l : List Nat), (∀ y ∈ l, x < y) → insertDesc x l = l ++ [x] := by
  intro l
  induction l with
  | nil => intro _; rfl
  | cons y ys ih =>
    intro h
    have hy : x < y := h y (List.mem_cons_self y ys)
    simp only [insertDesc, if_neg (by omega : ¬ x ≥ y), List.cons_append,
      List.cons.injEq, true_and]
    exact ih fun z hz => h z (List.mem_cons_of_mem y hz)

theorem sortDesc_of_ascending :
    ∀ l : List Nat, l.Pairwise (fun a b => a < b) → sortDesc l = l.reverse := by
  intro l
  induction l with
  | nil => intro _; rfl
  | cons x xs ih =>
    intro h
    obtain ⟨hx, hxs⟩ := List.pairwise_cons.mp h
    rw [sortDesc, ih hxs, insertDesc_all_lt x xs.reverse
      (fun y hy => hx y (List.mem_reverse.mp hy))]
    simp

/-- The `forEach` body of step 3 of `splitFromEnd`, acting on the state
`(parts, remaining, count)`: a skipped iteration (count at the limit, or a
stale position) leaves the state unchanged; otherwise the part after the
two-newline separator is pushed and `remaining` is truncated. -/
def sfeStep (limit : Option Nat) (st : List Str × Str × Nat) (pos : Nat) :
    List Str × Str × Nat :=
  let (parts, remaining, count) := st
  if (match limit with | none => false | some m => count ≥ m) then st
  else if pos ≥ remaining.length then st
  else (parts ++ [remaining.drop (pos + 2)], remaining.take pos, count + 1)

/-- `splitFromEnd(str, /\n\n/g, limit)` from `src/utils/StringUtils.js`
(the regex version): code-span ranges are collected, double-newline match
positions outside them are kept, and the string is split at those positions
from back to front.  The default `limit = Infinity` is `none`. -/
def splitFromEnd (str : Str) (limit : Option Nat) : List Str :=
  let codeBoundaries := codeSpans str
  let splitPositions := (nnPositions str 0).filter
    (fun pos => !(codeBoundaries.any fun b => decide (pos ≥ b.1) && decide (pos < b.2)))
  let sorted := sortDesc splitPositions
  let st := sorted.foldl (sfeStep limit) ([], str, 1)
  (st.1 ++ [st.2.1]).reverse

example :
    splitFromEnd "a\n\nb\n\n`x\n\ny`".data none =
      ["a".data, "b".data, "`x\n\ny`".data] := by
  decide

theorem split_at_nn (r : Str) (p : Nat) (h1 : r.get? p = some '\n')
    (h2 : r.get? (p + 1) = some '\n') :
    r = r.take p ++ '\n' :: '\n' :: r.drop (p + 2) := by
  have hp : p < r.length := (List.get?_eq_some.mp h1).1
  have hp1 : p + 1 < r.length := (List.get?_eq_some.mp h2).1
  have e1 : r.get ⟨p, hp⟩ = '\n' := by
    have := List.get?_eq_get hp
    rw [h1] at this
    exact (Option.some.inj this).symm
  have e2 : r.get ⟨p + 1, hp1⟩ = '\n' := by
    have := List.get?_eq_get hp1
    rw [h2] at this
    exact (Option.some.inj this).symm
  conv_lhs => rw [← List.take_append_drop p r]
  congr 1
  rw [List.drop_eq_get_cons hp, e1]
  congr 1
  rw [List.drop_eq_get_cons hp1, e2]

theorem sfe_fold (str : Str) :
    ∀ (qs : List Nat) (parts : List Str) (m count : Nat),
      m ≤ str.length →
      qs.Pairwise (fun a b => b + 2 ≤ a) →
      (∀ p ∈ qs, p + 2 ≤ m ∧ str.get? p = some '\n' ∧ str.get? (p + 1) = some '\n') →
      (qs.foldl (sfeStep none) (parts, str.take m, count)).2.1 ++
          joinTail (qs.foldl (sfeStep none) (parts, str.take m, count)).1.reverse =
        str.take m ++ joinTail parts.reverse := by
  intro qs
  induction qs with
  | nil => intro parts m count _ _ _; rfl
  | cons p rest ih =>
    intro parts m count hm hpw hmem
    obtain ⟨hp2, hc1, hc2⟩ := hmem p (List.mem_cons_self p rest)
    obtain ⟨hhead, htail⟩ := List.pairwise_cons.mp hpw
    have hlen : (str.take m).length = m := by
      rw [List.length_take]
      omega
    have hguard : ¬ p ≥ (str.take m).length := by rw [hlen]; omega
    have hstep : sfeStep none (parts, str.take m, count) p =
        (parts ++ [(str.take m).drop (p + 2)], str.take p, count + 1) := by
      have hred : sfeStep none (parts, str.take m, count) p =
          if p ≥ (str.take m).length then (parts, str.take m, count)
          else (parts ++ [(str.take m).drop (p + 2)], (str.take m).take p,
            count + 1) := rfl
      rw [hred, if_neg hguard, List.take_take,
        Nat.min_eq_left (by omega : p ≤ m)]
    rw [List.foldl_cons, hstep,
      ih (parts ++ [(str.take m).drop (p + 2)]) p (count + 1) (by omega) htail
        (fun q hq => ⟨(hhead q hq), (hmem q (List.mem_cons_of_mem p hq)).2⟩)]
    rw [List.reverse_append, List.reverse_singleton, List.singleton_append,
      joinTail]
    have hr1 : (str.take m).get? p = some '\n' := by
      rw [List.get?_take (by omega : p < m)]
      exact hc1
    have hr2 : (str.take m).get? (p + 1) = some '\n' := by
      rw [List.get?_take (by omega : p + 1 < m)]
      exact hc2
    have hsplit := split_at_nn (str.take m) p hr1 hr2
    rw [List.take_take, Nat.min_eq_left (by omega : p ≤ m)] at hsplit
    conv_rhs => rw [hsplit]
    simp [nn, List.append_assoc]

theorem splitFromEnd_reassemble (str : Str) :
    joinSep nn (splitFromEnd str none) = str := by
  rw [splitFromEnd]
  set ps := (nnPositions str 0).filter
    (fun pos => !((codeSpans str).any fun b => decide (pos ≥ b.1) && decide (pos < b.2)))
    with hps
  have hasc : ps.Pairwise (fun a b => a + 2 ≤ b) :=
    (nnPositions_pairwise str 0).filter _
  have hlt : ps.Pairwise (fun a b => a < b) := hasc.imp (by omega)
  have hdesc : ps.reverse.Pairwise (fun a b => b + 2 ≤ a) :=
    List.pairwise_reverse.mpr hasc
  have hmem : ∀ p ∈ ps.reverse,
      p + 2 ≤ str.length ∧ str.get? p = some '\n' ∧ str.get? (p + 1) = some '\n' := by
    intro p hp
    have hp' : p ∈ nnPositions str 0 :=
      List.mem_of_mem_filter (List.mem_reverse.mp hp)
    obtain ⟨-, h2, h3⟩ := nnPositions_spec str 0 p hp'
    simp only [Nat.sub_zero] at h2 h3
    have : p + 1 < str.length := (List.get?_eq_some.mp h3).1
    exact ⟨by omega, h2, h3⟩
  rw [sortDesc_of_ascending ps hlt]
  have hfold := sfe_fold str ps.reverse [] str.length 1 (le_refl _) hdesc
    (by simpa using hmem)
  rw [List.take_length] at hfold
  set st := ps.reverse.foldl (sfeStep none) ([], str, 1) with hst
  rw [List.reverse_append, List.reverse_singleton, List.singleton_append,
    joinSep_nn_cons]
  simpa [joinTail] using hfold

/-! ## Table cell splitting (`Tokenizer.js`, `splitCells`) -/

/-- The `tableRow.replace(/\|/g, cb)` pass of `splitCells`: `k` is the number
of contiguous backslashes immediately before the current position. A pipe
preceded by an odd number of backslashes is left alone; an unescaped pipe
gets a space inserted before it. -/
def markPipes : Str → Nat → Str
  | [], _ => []
  | '\\' :: rest, k => '\\' :: markPipes rest (k + 1)
  | '|' :: rest, k => (if k % 2 = 1 then ['|'] else [' ', '|']) ++ markPipes rest 0
  | c :: rest, _ => c :: markPipes rest 0

/-- Prepend a character to the first entry of a split result. -/
def consHead (c : Char) : List Str → List Str
  | [] => [[c]]
  | h :: t => (c :: h) :: t

/-- `row.split(/ \|/)`: split on the two-character separator space-pipe. -/
def splitSP : Str → List Str
  | [] => [[]]
  | ' ' :: '|' :: rest => [] :: splitSP rest
  | c :: rest => consHead c (splitSP rest)

/-- Reference splitter, following the specification's words for cell
splitting: scanning the original row, a pipe preceded by an even number of
contiguous backslashes is a cell delimiter, a pipe preceded by an odd number
stays inside the cell text; `k` is the pending backslash-run length. -/
def refSplit : Str → Nat → List Str
  | [], _ => [[]]
  | '\\' :: rest, k => consHead '\\' (refSplit rest (k + 1))
  | '|' :: rest, k =>
    if k % 2 = 1 then consHead '|' (refSplit rest 0) else [] :: refSplit rest 0
  | c :: rest, _ => consHead c (refSplit rest 0)

theorem markPipes_head_ne_pipe (rest : Str) :
    (markPipes rest 0).head? ≠ some '|' := by
  cases rest with
  | nil => simp [markPipes]
  | cons c r =>
    rw [markPipes.eq_def]
    split
    · simp
    · simp
    · simp
    · simp_all

theorem splitSP_cons (c : Char) (rest : Str)
    (h : ¬(c = ' ' ∧ rest.head? = some '|')) :
    splitSP (c :: rest) = consHead c (splitSP rest) := by
  rw [splitSP.eq_def]
  split
  · rename_i heq
    exact absurd heq (by simp)
  · rename_i xs heq
    injection heq with h1 h2
    exact absurd ⟨h1, by rw [h2]; rfl⟩ h
  · rename_i m cc rr hne heq
    injection heq with h1 h2
    subst h1
    subst h2
    rfl

theorem markPipes_cons (c : Char) (rest : Str) (k : Nat)
    (h1 : c ≠ '\\') (h2 : c ≠ '|') :
    markPipes (c :: rest) k = c :: markPipes rest 0 := by
  rw [markPipes.eq_def]
  split
  · rename_i heq
    exact absurd heq (by simp)
  · rename_i r kk heq
    injection heq with e1 e2
    exact absurd e1 h1
  · rename_i r kk heq
    injection heq with e1 e2
    exact absurd e1 h2
  · rename_i m cc rr kk hne heq
    injection heq with e1 e2
    subst e1
    subst e2
    rfl

theorem refSplit_cons (c : Char) (rest : Str) (k : Nat)
    (h1 : c ≠ '\\') (h2 : c ≠ '|') :
    refSplit (c :: rest) k = consHead c (refSplit rest 0) := by
  rw [refSplit.eq_def]
  split
  · rename_i heq
    exact absurd heq (by simp)
  · rename_i r kk heq
    injection heq with e1 e2
    exact absurd e1 h1
  · rename_i r kk heq
    injection heq with e1 e2
    exact absurd e1 h2
  · rename_i m cc rr kk hne heq
    injection heq with e1 e2
    subst e1
    subst e2
    rfl

/-- The escaped-pipe refinement: splitting the space-inserted row on
space-pipe separators is exactly the reference splitter that cuts at pipes
preceded by an even number of contiguous backslashes and keeps odd-escaped
pipes in the cell text. -/
theorem splitSP_markPipes (row : Str) :
    ∀ k : Nat, splitSP (markPipes row k) = refSplit row k := by
  induction row with
  | nil => intro k; rfl
  | cons c rest ih =>
    intro k
    by_cases hbs : c = '\\'
    · subst hbs
      rw [show markPipes ('\\' :: rest) k = '\\' :: markPipes rest (k + 1) from rfl,
        splitSP_cons _ _ (by simp), ih (k + 1)]
      rfl
    · by_cases hp : c = '|'
      · subst hp
        by_cases hk : k % 2 = 1
        · rw [show markPipes ('|' :: rest) k =
              (if k % 2 = 1 then ['|'] else [' ', '|']) ++ markPipes rest 0 from rfl,
            if_pos hk, List.singleton_append,
            splitSP_cons _ _ (by simp), ih 0,
            show refSplit ('|' :: rest) k =
              (if k % 2 = 1 then consHead '|' (refSplit rest 0)
               else [] :: refSplit rest 0) from rfl,
            if_pos hk]
        · rw [show markPipes ('|' :: rest) k =
              (if k % 2 = 1 then ['|'] else [' ', '|']) ++ markPipes rest 0 from rfl,
            if_neg hk]
          simp only [List.cons_append, List.nil_append]
          rw [show splitSP (' ' :: '|' :: markPipes rest 0) =
              [] :: splitSP (markPipes rest 0) from rfl, ih 0,
            show refSplit ('|' :: rest) k =
              (if k % 2 = 1 then consHead '|' (refSplit rest 0)
               else [] :: refSplit rest 0) from rfl,
            if_neg hk]
      · rw [markPipes_cons c rest k hbs hp, refSplit_cons c rest k hbs hp, ← ih 0]
        rcases Decidable.em (c = ' ') with hsp | hsp
        · subst hsp
          exact splitSP_cons ' ' (markPipes rest 0)
            fun hx => markPipes_head_ne_pipe rest hx.2
        · exact splitSP_cons c (markPipes rest 0) fun hx => hsp hx.1

/-- JavaScript `String.prototype.trim`: whitespace stripped at both ends. -/
def trimJs (l : Str) : Str :=
  ((l.dropWhile isJsWs).reverse.dropWhile isJsWs).reverse

/-- `cell.replace(/\\\|/g, "|")`: each backslash-pipe pair becomes a pipe. -/
def unescapePipes : Str → Str
  | '\\' :: '|' :: rest => '|' :: unescapePipes rest
  | c :: rest => c :: unescapePipes rest
  | [] => []

/-- `splitCells` from `src/processor/renderer/Tokenizer.js` (taken from the
base engine's helpers): insert a space before every unescaped pipe, split on
space-pipe, drop an empty leading/trailing cell, adjust to `count` columns
when `count` is non-zero (`0` is the JavaScript falsy default), then trim each
cell and unescape `\|`. -/
def splitCells (tableRow : Str) (count : Nat) : List Str :=
  let cells0 := splitSP (markPipes tableRow 0)
  let cells1 :=
    match cells0 with
    | c :: rest => if trimJs c = [] then rest else cells0
    | [] => cells0
  let cells2 :=
    match cells1.getLast? with
    | some last => if trimJs last = [] then cells1.dropLast else cells1
    | none => cells1
  let cells3 :=
    if count ≠ 0 then
      (if cells2.length > count then cells2.take count
       else cells2 ++ List.replicate (count - cells2.length) [])
    else cells2
  cells3.map fun cell => unescapePipes (trimJs cell)

example : splitCells "| a\\|b | c |".data 0 = ["a|b".data, "c".data] := by decide

example : splitCells "a | b".data 0 = ["a".data, "b".data] := by decide

example : splitCells "| a |".data 3 = ["a".data, [], []] := by decide

/-! ## Table tokenizer (`Tokenizer.js`, `tokenizer.table`) -/

/-- Test of the base engine's `rules.other.tableDelimiter`, `/[:|]/`: the
delimiter row must contain a pipe or a colon (otherwise the match is a setext
heading and is declined). -/
def tableDelimiterTest (l : Str) : Bool := l.any fun c => c = ':' || c = '|'

/-- The trailing-pipe removal of the base engine's `tableAlignChars`
(`/^\||\| *$/g`), second alternative: the leftmost pipe followed only by
spaces, together with those spaces, is removed. -/
def cutTrailingPipe : Str → Str
  | [] => []
  | '|' :: rest => if rest.all (fun c => c = ' ') then [] else '|' :: cutTrailingPipe rest
  | c :: rest => c :: cutTrailingPipe rest

/-- `cap[2].replace(this.rules.other.tableAlignChars, "")`: strip a leading
pipe and a trailing pipe-plus-spaces. -/
def stripAlignChars (l : Str) : Str :=
  cutTrailingPipe (match l with | '|' :: rest => rest | _ => l)

/-- `"a|b".split("|")`: split on single pipes, keeping empty parts. -/
def splitPipe : Str → List Str
  | [] => [[]]
  | '|' :: rest => [] :: splitPipe rest
  | c :: rest => consHead c (splitPipe rest)

/-- Column alignments (`"right"` / `"center"` / `"left"` / `null` in the
source). -/
inductive ColAlign where
  | right
  | center
  | left
deriving DecidableEq

/-- Test of the base engine's `tableAlignRight`, `/^ *-+: *$/`. -/
def tableAlignRightTest (l : Str) : Bool :=
  let l1 := l.dropWhile (fun c => c = ' ')
  let d := l1.takeWhile (fun c => c = '-')
  decide (d ≠ []) &&
    (match l1.drop d.length with
     | ':' :: sp => sp.all (fun c => c = ' ')
     | _ => false)

/-- Test of the base engine's `tableAlignCenter`, `/^ *:-+: *$/`. -/
def tableAlignCenterTest (l : Str) : Bool :=
  match l.dropWhile (fun c => c = ' ') with
  | ':' :: l1 =>
    let d := l1.takeWhile (fun c => c = '-')
    decide (d ≠ []) &&
      (match l1.drop d.length with
       | ':' :: sp => sp.all (fun c => c = ' ')
       | _ => false)
  | _ => false

/-- Test of the base engine's `tableAlignLeft`, `/^ *:-+ *$/`. -/
def tableAlignLeftTest (l : Str) : Bool :=
  match l.dropWhile (fun c => c = ' ') with
  | ':' :: l1 =>
    let d := l1.takeWhile (fun c => c = '-')
    decide (d ≠ []) && (l1.drop d.length).all (fun c => c = ' ')
  | _ => false

/-- The per-column classification loop of `tokenizer.table`. -/
def classifyAlign (col : Str) : Option ColAlign :=
  if tableAlignRightTest col then some .right
  else if tableAlignCenterTest col then some .center
  else if tableAlignLeftTest col then some .left
  else none

/-- A table cell as built by `tokenizer.table` (the inline child tokens are
produced by the base engine's lexer and are not part of this embedding). -/
structure Cell where
  text : Str
  header : Bool
  align : Option ColAlign
deriving DecidableEq

/-- The table token built by `tokenizer.table` (`raw` and the lexer-produced
inline tokens omitted). -/
structure TableToken where
  header : List Cell
  align : List (Option ColAlign)
  rows : List (List Cell)
deriving DecidableEq

/-- The base engine's `tableRowBlankLine` replacement (`/\n[ \t]*$/` removed):
strip a trailing newline-plus-blanks. -/
def stripRowBlankLine (l : Str) : Str :=
  let revBlanks := l.reverse.takeWhile fun c => c = ' ' || c = '\t'
  match l.reverse.drop revBlanks.length with
  | '\n' :: restRev => restRev.reverse
  | _ => l

/-- `"a\nb".split("\n")`. -/
def splitNL : Str → List Str
  | [] => [[]]
  | '\n' :: rest => [] :: splitNL rest
  | c :: rest => consHead c (splitNL rest)

/-- `tokenizer.table` from `src/processor/renderer/Tokenizer.js`, acting on
the capture groups of `rules.renderer.table.pattern` (`cap[1]` the header
row, `cap[2]` the delimiter row, `cap[3]` the optional body): declines when
the delimiter row has no pipe or colon, or when the header-cell and
alignment-column counts differ; otherwise builds the table token, replacing
empty cells by the `"[EMPTY]"` placeholder. -/
def tableTokenizer (c1 c2 : Str) (c3 : Option Str) : Option TableToken :=
  if ¬ tableDelimiterTest c2 then none
  else
    let headers := splitCells c1 0
    let aligns := splitPipe (stripAlignChars c2)
    let rows :=
      match c3 with
      | some s => if trimJs s ≠ [] then splitNL (stripRowBlankLine s) else []
      | none => []
    if headers.length ≠ aligns.length then none
    else
      let alignsC := aligns.map classifyAlign
      some
        { header := List.zipWith
            (fun text al =>
              Cell.mk (if text = [] then "[EMPTY]".data else text) true al)
            headers alignsC
          align := alignsC
          rows := rows.map fun row =>
            List.zipWith
              (fun text al =>
                Cell.mk (if text = [] then "[EMPTY]".data else text) false al)
              (splitCells row headers.length) alignsC }

example :
    tableTokenizer "| a | b |".data "|---|:---:|".data (some "| c | d |".data) =
      some
        { header := [Cell.mk "a".data true none, Cell.mk "b".data true (some .center)]
          align := [none, some .center]
          rows := [[Cell.mk "c".data false none, Cell.mk "d".data false (some .center)]] } := by
  decide

example : tableTokenizer "| a | b |".data "|---|".data none = none := by decide

/-! ## Strikethrough tokenizer (`Rules.js` `marked.del.pattern`, `tokenizer.del`) -/

/-- JavaScript `.` (dot, no `s` flag): any character except a line
terminator. -/
def jsDot (c : Char) : Bool := c ≠ '\n' && c ≠ '\r'

/-- The mandatory final piece of the del pattern's second capture group,
`(?:\\.|[^\s~\\])`; both alternatives are determined by the first character.
Returns the consumed piece and the remaining input. -/
def delFinal : Str → Option (Str × Str)
  | '\\' :: c :: rest => if jsDot c then some (['\\', c], rest) else none
  | ['\\'] => none
  | c :: rest => if !(isJsWs c) && c ≠ '~' then some ([c], rest) else none
  | [] => none

/-- One repetition of the lazy part of the second capture group,
`(?:\\.|[^\\])`; again determined by the first character. -/
def delPiece : Str → Option (Str × Str)
  | '\\' :: c :: rest => if jsDot c then some (['\\', c], rest) else none
  | ['\\'] => none
  | c :: rest => some ([c], rest)
  | [] => none

/-- The attempt to finish the del match at the current position: the final
piece, then the backreference `\1`, then the trailing lookahead
`(?=[^~]|$)`. Returns the final piece and the input after the closing
delimiter. -/
def delTryFinal (delim rest : Str) : Option (Str × Str) :=
  match delFinal rest with
  | some (piece, rest1) =>
    if delim.isPrefixOf rest1 then
      match rest1.drop delim.length with
      | [] => some (piece, [])
      | c :: rest2 => if c = '~' then none else some (piece, c :: rest2)
    else none
  | none => none

/-- The lazy expansion loop of the second capture group: at each position the
completing final piece (plus backreference and lookahead) is tried first;
on failure one lazy repetition is consumed and the scan continues. `acc` is
the capture matched so far; the fuel is adequate from `rest.length + 1`
because each repetition consumes at least one character. Returns the second
capture and the input after the match. -/
def delLoopGo : Nat → Str → Str → Str → Option (Str × Str)
  | 0, _, _, _ => none
  | fuel + 1, delim, acc, rest =>
    match delTryFinal delim rest with
    | some (piece, rest2) => some (acc ++ piece, rest2)
    | none =>
      match delPiece rest with
      | some (piece, rest1) => delLoopGo fuel delim (acc ++ piece) rest1
      | none => none

/-- The del pattern after a chosen delimiter `(~~?)` has been consumed: the
lookahead `(?=[^\s~])` must see a non-space non-tilde character, then the
capture loop runs. Returns the two capture groups. -/
def delAt (delim rest : Str) : Option (Str × Str) :=
  match rest with
  | c :: _ =>
    if !(isJsWs c) && c ≠ '~' then
      (delLoopGo (rest.length + 1) delim [] rest).map fun r => (delim, r.1)
    else none
  | [] => none

/-- `rules.marked.del.pattern.exec(src)`:
`/^(~~?)(?=[^\s~])((?:\\.|[^\\])*?(?:\\.|[^\s~\\]))\1(?=[^~]|$)/`.
The greedy `(~~?)` tries two tildes first and falls back to one. Returns the
two capture groups (the whole match is `cap1 ++ cap2 ++ cap1`). -/
def delExec (src : Str) : Option (Str × Str) :=
  match src with
  | '~' :: '~' :: rest => (delAt ['~', '~'] rest).orElse fun _ => delAt ['~'] ('~' :: rest)
  | '~' :: rest => delAt ['~'] rest
  | _ => none

/-- The del token built by `tokenizer.del` (the lexer-produced child tokens
are not part of this embedding). -/
structure DelToken where
  raw : Str
  text : Str
deriving DecidableEq

/-- `tokenizer.del` from `src/processor/renderer/Tokenizer.js`: on a pattern
match, `raw` is the whole match and `text` the second capture group. -/
def delTokenizer (src : Str) : Option DelToken :=
  (delExec src).map fun cap => { raw := cap.1 ++ cap.2 ++ cap.1, text := cap.2 }

example : delTokenizer "~~ab~~ x".data =
    some { raw := "~~ab~~".data, text := "ab".data } := by decide

example : delTokenizer "~a~".data = some { raw := "~a~".data, text := "a".data } := by
  decide

example : delTokenizer "~~x~".data = none := by decide

example : delTokenizer "~x~~".data = none := by decide

example : delTokenizer "~~~~".data = none := by decide

theorem delFinal_ne (rest piece rest1 : Str)
    (h : delFinal rest = some (piece, rest1)) : piece ≠ [] := by
  rw [delFinal.eq_def] at h
  split at h
  · split at h
    · cases h; simp
    · exact absurd h (by simp)
  · exact absurd h (by simp)
  · split at h
    · cases h; simp
    · exact absurd h (by simp)
  · exact absurd h (by simp)

theorem delTryFinal_ne (delim rest piece rest2 : Str)
    (h : delTryFinal delim rest = some (piece, rest2)) : piece ≠ [] := by
  rw [delTryFinal] at h
  split at h
  · rename_i p r1 heq
    split at h
    · split at h
      · cases h
        exact delFinal_ne rest piece r1 heq
      · split at h
        · exact absurd h (by simp)
        · cases h
          exact delFinal_ne rest piece r1 heq
    · exact absurd h (by simp)
  · exact absurd h (by simp)

theorem delLoopGo_ne (fuel : Nat) :
    ∀ (delim acc rest c2 r : Str),
      delLoopGo fuel delim acc rest = some (c2, r) → acc.length < c2.length := by
  induction fuel with
  | zero => intro delim acc rest c2 r h; exact absurd h (by simp [delLoopGo])
  | succ fuel ih =>
    intro delim acc rest c2 r h
    rw [delLoopGo] at h
    split at h
    · rename_i p r2 heq
      cases h
      have := delTryFinal_ne delim rest p _ heq
      have : p.length ≠ 0 := fun h0 => this (List.eq_nil_of_length_eq_zero h0)
      simp only [List.length_append]
      omega
    · split at h
      · rename_i p r1 heq
        have := ih delim (acc ++ p) r1 c2 r h
        simp only [List.length_append] at this
        omega
      · exact absurd h (by simp)

theorem delAt_spec (delim rest : Str) (p : Str × Str)
    (h : delAt delim rest = some p) : p.1 = delim ∧ p.2 ≠ [] := by
  rw [delAt.eq_def] at h
  split at h
  · split at h
    · simp only [Option.map_eq_some'] at h
      obtain ⟨⟨ra, rb⟩, hr, rfl⟩ := h
      refine ⟨rfl, ?_⟩
      have hlen := delLoopGo_ne _ delim [] _ ra rb hr
      exact fun h0 => by
        rw [show ra = [] from h0] at hlen
        simp at hlen
    · exact absurd h (by simp)
  · exact absurd h (by simp)

theorem delExec_spec (src c1 c2 : Str)
    (h : delExec src = some (c1, c2)) :
    (c1 = ['~'] ∨ c1 = ['~', '~']) ∧ c2 ≠ [] := by
  rw [delExec.eq_def] at h
  split at h
  · rename_i rest
    rcases ho : delAt ['~', '~'] rest with - | p
    · rw [ho] at h
      simp only [Option.orElse] at h
      obtain ⟨h1, h2⟩ := delAt_spec ['~'] _ _ h
      exact ⟨Or.inl (by rw [← h1]), by simpa using h2⟩
    · rw [ho] at h
      simp only [Option.orElse] at h
      cases h
      obtain ⟨h1, h2⟩ := delAt_spec ['~', '~'] _ _ ho
      exact ⟨Or.inr (by rw [← h1]), by simpa using h2⟩
  · rename_i rest
    obtain ⟨h1, h2⟩ := delAt_spec ['~'] _ _ h
    exact ⟨Or.inl (by rw [← h1]), by simpa using h2⟩
  · exact absurd h (by simp)

/-! ## Inline text concatenation (`concatTexts`) -/

/-- A token as consumed by `concatTexts`: a `text` field that may be absent
(or an empty, falsy string) and an optional `tokens` array of nested tokens
(`node` when the `tokens` field is present — even as an empty, truthy
array — `leaf` when it is `undefined`). -/
inductive Token where
  | leaf (text : Option Str)
  | node (text : Option Str) (tokens : List Token)

/-- The error message of the recursion guard. -/
def tooManyNested : Str := "There are too many nested tokens.".data

/-- Nesting depth of a token array: the number of nested `tokens` levels on
the deepest chain. -/
def listDepth : List Token → Nat
  | [] => 0
  | .leaf _ :: rest => listDepth rest
  | .node _ sub :: rest => max (1 + listDepth sub) (listDepth rest)

/-- The pure concatenation of all nested `text` fields (a token with a
`tokens` array contributes its children's texts, not its own `text`). -/
def flattenTexts : List Token → Str
  | [] => []
  | .leaf text :: rest => text.getD [] ++ flattenTexts rest
  | .node _ sub :: rest => flattenTexts sub ++ flattenTexts rest

mutual

/-- `concatTexts(tokens, depth, maxDepth)` from the renderer module: throws
once `depth` exceeds `maxDepth`, otherwise reduces over the tokens,
recursing (with `maxDepth` back at its default `1000`) into every `tokens`
array. Exceptions are modelled by `Except`. -/
def concatTexts (toks : List Token) (depth maxDepth : Nat) : Except Str Str :=
  if depth > maxDepth then .error tooManyNested
  else concatList toks depth maxDepth []
termination_by (sizeOf toks, 1)

/-- The `tokens.reduce` loop of `concatTexts`; `acc` is the accumulator. -/
def concatList : List Token → Nat → Nat → Str → Except Str Str
  | [], _, _, acc => .ok acc
  | .leaf text :: rest, depth, md, acc =>
    concatList rest depth md (acc ++ text.getD [])
  | .node _ sub :: rest, depth, md, acc =>
    match concatTexts sub (depth + 1) 1000 with
    | .ok s => concatList rest depth md (acc ++ s)
    | .error e => .error e
termination_by toks _ _ _ => (sizeOf toks, 0)

end

theorem concatList_ok :
    ∀ (n : Nat) (toks : List Token) (depth : Nat) (acc : Str),
      sizeOf toks ≤ n → depth + listDepth toks ≤ 1000 →
      concatList toks depth 1000 acc = .ok (acc ++ flattenTexts toks) := by
  intro n
  induction n using Nat.strong_induction_on with
  | _ n ih =>
    intro toks depth acc hs hd
    match toks with
    | [] => simp [concatList, flattenTexts]
    | .leaf text :: rest =>
      rw [concatList]
      have hsz : sizeOf rest < sizeOf (Token.leaf text :: rest) := by simp
      rw [ih (sizeOf rest) (by omega) rest depth (acc ++ text.getD [])
        (le_refl _) (by simpa [listDepth] using hd)]
      simp [flattenTexts, List.append_assoc]
    | .node t sub :: rest =>
      rw [concatList]
      have h1 : 1 + listDepth sub ≤ max (1 + listDepth sub) (listDepth rest) :=
        Nat.le_max_left _ _
      have h2 : listDepth rest ≤ max (1 + listDepth sub) (listDepth rest) :=
        Nat.le_max_right _ _
      rw [listDepth] at hd
      have hsub : sizeOf sub < sizeOf (Token.node t sub :: rest) := by
        simp
        omega
      have hrest : sizeOf rest < sizeOf (Token.node t sub :: rest) := by simp
      rw [concatTexts, if_neg (by omega : ¬ depth + 1 > 1000),
        ih (sizeOf sub) (by omega) sub (depth + 1) [] (le_refl _) (by omega)]
      simp only [List.nil_append]
      rw [ih (sizeOf rest) (by omega) rest depth (acc ++ flattenTexts sub)
        (le_refl _) (by omega)]
      simp [flattenTexts, List.append_assoc]

theorem concatTexts_ok (toks : List Token) (depth : Nat)
    (hd : depth + listDepth toks ≤ 1000) :
    concatTexts toks depth 1000 = .ok (flattenTexts toks) := by
  rw [concatTexts, if_neg (by omega : ¬ depth > 1000),
    concatList_ok (sizeOf toks) toks depth [] (le_refl _) hd]
  simp

theorem concatList_err :
    ∀ (n : Nat) (toks : List Token) (depth : Nat) (acc : Str),
      sizeOf toks ≤ n → depth ≤ 1000 → 1000 < depth + listDepth toks →
      concatList toks depth 1000 acc = .error tooManyNested := by
  intro n
  induction n using Nat.strong_induction_on with
  | _ n ih =>
    intro toks depth acc hs hld hd
    match toks with
    | [] => rw [listDepth] at hd; omega
    | .leaf text :: rest =>
      rw [concatList]
      have hsz : sizeOf rest < sizeOf (Token.leaf text :: rest) := by simp
      exact ih (sizeOf rest) (by omega) rest depth (acc ++ text.getD [])
        (le_refl _) hld (by rw [listDepth] at hd; omega)
    | .node t sub :: rest =>
      rw [concatList]
      have h1 : 1 + listDepth sub ≤ max (1 + listDepth sub) (listDepth rest) :=
        Nat.le_max_left _ _
      have h2 : listDepth rest ≤ max (1 + listDepth sub) (listDepth rest) :=
        Nat.le_max_right _ _
      rw [listDepth] at hd
      have hsub : sizeOf sub < sizeOf (Token.node t sub :: rest) := by
        simp
        omega
      have hrest : sizeOf rest < sizeOf (Token.node t sub :: rest) := by simp
      by_cases hover : 1000 < depth + (1 + listDepth sub)
      · by_cases htop : depth + 1 > 1000
        · rw [concatTexts, if_pos htop]
        · rw [concatTexts, if_neg htop,
            ih (sizeOf sub) (by omega) sub (depth + 1) [] (le_refl _)
              (by omega) (by omega)]
      · have hrd : 1000 < depth + listDepth rest := by
          by_contra hc
          push_neg at hc
          have hm : max (1 + listDepth sub) (listDepth rest) ≤ 1000 - depth :=
            Nat.max_le.mpr ⟨by omega, by omega⟩
          omega
        rw [concatTexts_ok sub (depth + 1) (by omega)]
        exact ih (sizeOf rest) (by omega) rest depth (acc ++ flattenTexts sub)
          (le_refl _) hld hrd

theorem concatTexts_err (toks : List Token) (hd : 1000 < listDepth toks) :
    concatTexts toks 0 1000 = .error tooManyNested := by
  rw [concatTexts, if_neg (by omega : ¬ 0 > 1000)]
  exact concatList_err (sizeOf toks) toks 0 [] (le_refl _) (by omega) (by omega)

/-- A nesting chain of `n` nested `tokens` arrays over a single leaf. -/
def deepToks : Nat → List Token
  | 0 => [.leaf (some "a".data)]
  | n + 1 => [.node none (deepToks n)]

theorem listDepth_deepToks (n : Nat) : listDepth (deepToks n) = n := by
  induction n with
  | zero => simp [deepToks, listDepth]
  | succ n ih =>
    simp [deepToks, listDepth, ih]
    omega

/-! ## Restorer (`Restorer.js`) -/

/-- A DOM element as read by the restorer: tag name, class attribute, text
content (stored directly; the restorer reads `.textContent` opaquely),
the `data-*` attributes it consults, the checkbox state and `type` of input
elements, the `align` property of table cells, and the child elements. -/
inductive Element where
  | mk (tagName className textContent : Str)
       (datasetType datasetRaw datasetPurposes inputType : Option Str)
       (checked : Bool) (alignAttr : Str)
       (children : List Element)

def Element.tagName : Element → Str
  | .mk t _ _ _ _ _ _ _ _ _ => t

def Element.className : Element → Str
  | .mk _ c _ _ _ _ _ _ _ _ => c

def Element.textContent : Element → Str
  | .mk _ _ tc _ _ _ _ _ _ _ => tc

def Element.datasetType : Element → Option Str
  | .mk _ _ _ dt _ _ _ _ _ _ => dt

def Element.datasetRaw : Element → Option Str
  | .mk _ _ _ _ dr _ _ _ _ _ => dr

def Element.datasetPurposes : Element → Option Str
  | .mk _ _ _ _ _ dp _ _ _ _ => dp

def Element.inputType : Element → Option Str
  | .mk _ _ _ _ _ _ it _ _ _ => it

def Element.checked : Element → Bool
  | .mk _ _ _ _ _ _ _ ck _ _ => ck

def Element.alignAttr : Element → Str
  | .mk _ _ _ _ _ _ _ _ al _ => al

def Element.children : Element → List Element
  | .mk _ _ _ _ _ _ _ _ _ ch => ch

/-- `element.querySelector(sel)` over a forest: the first descendant, in
document (pre-)order, satisfying the predicate. -/
def findDesc (p : Element → Bool) : List Element → Option Element
  | [] => none
  | Element.mk tn cn tc dt dr dp it ck al kids :: rest =>
    let e := Element.mk tn cn tc dt dr dp it ck al kids
    if p e then some e
    else
      match findDesc p kids with
      | some r => some r
      | none => findDesc p rest

/-- `element.querySelectorAll(sel)` over a forest: all matching elements in
document (pre-)order. -/
def collectDesc (p : Element → Bool) : List Element → List Element
  | [] => []
  | Element.mk tn cn tc dt dr dp it ck al kids :: rest =>
    let e := Element.mk tn cn tc dt dr dp it ck al kids
    (if p e then [e] else []) ++ collectDesc p kids ++ collectDesc p rest

/-- The backslash-run handling of `escapeString`: the even part of the run is
kept and one more backslash is appended when the run length is odd (as
written in the source; the output length equals the run length). -/
def processBackslashes (count : Nat) : Str :=
  List.replicate (count - count % 2) '\\' ++ (if count % 2 = 1 then ['\\'] else [])

/-- The escape map of `escapeString` applied to one character. -/
def escChar (c : Char) : Str :=
  if c = '<' then "&lt;".data else if c = '>' then "&#62;".data else [c]

/-- The character loop of `escapeString`, carrying `backslashCount`. -/
def escapeStringGo : Str → Nat → Str
  | [], count => processBackslashes count
  | '\\' :: rest, count => escapeStringGo rest (count + 1)
  | c :: rest, count =>
    processBackslashes count ++ (if count % 2 = 0 then escChar c else [c]) ++
      escapeStringGo rest 0

/-- `escapeString` from `src/utils/StringUtils.js`: escapes `<` and `>` to
HTML entities unless preceded by an odd backslash run. -/
def escapeString (l : Str) : Str := escapeStringGo l 0

example : escapeString "a <b> \\<c".data = "a &lt;b&#62; \\<c".data := by decide

/-- `s.repeat(n)`. -/
def repStr (s : Str) (n : Nat) : Str := catAll (List.replicate n s)

/-- `pre.className.match(/language-(.+)/)?.[1] || ""`: the text after the
first `language-` marker (up to a line terminator, which class names do not
contain), or empty when absent or empty. -/
def langOf (className : Str) : Str :=
  match indexOfSub "language-".data className with
  | some i => (className.drop (i + 9)).takeWhile (fun c => c ≠ '\n')
  | none => []

/-- `restorer.code`: rebuilds the fence from the `language-` class of the
inner `pre` element and its trimmed text content (optional chaining makes a
missing `pre` yield an empty language and empty content). -/
def restorerCode (e : Element) : Except Str Str :=
  let preEl := findDesc (fun d => d.tagName = "PRE".data) e.children
  let language :=
    match preEl with
    | some p => langOf p.className
    | none => []
  let content :=
    match preEl with
    | some p => trimJs p.textContent
    | none => []
  .ok ("```".data ++ language ++ ['\n'] ++ content ++ "\n```".data)

/-- `restorer.hr`: returns `element.dataset.raw`; when the attribute is
absent the JavaScript value is `undefined`, which string contexts coerce to
`"undefined"`. -/
def restorerHr (e : Element) : Except Str Str :=
  .ok (e.datasetRaw.getD "undefined".data)

/-- `restorer.heading`: `parseInt(tagName.charAt(1))` hash marks (a
non-digit gives `NaN`, and `"#".repeat(NaN)` is empty) then the text
content. -/
def restorerHeading (e : Element) : Except Str Str :=
  let depth :=
    match e.tagName.get? 1 with
    | some c => if c.isDigit then c.toNat - '0'.toNat else 0
    | none => 0
  .ok (repStr "#".data depth ++ " ".data ++ e.textContent)

/-- `restorer.br`: a `data-purposes="breaks"` break restores the soft break
marker, any other break the empty-line placeholder. -/
def restorerBr (e : Element) : Except Str Str :=
  .ok (if e.datasetPurposes = some "breaks".data then "  \n".data
       else "[EMPTY]".data)

/-- `restorer.text`: a leading `BR` child delegates to the break handler,
otherwise the text content is escaped. -/
def restorerText (e : Element) : Except Str Str :=
  match e.children.head? with
  | some fc => if fc.tagName = "BR".data then restorerBr fc
               else .ok (escapeString e.textContent)
  | none => .ok (escapeString e.textContent)

/-- `restorer.default`: escaped literal text content. -/
def restorerDefault (e : Element) : Except Str Str :=
  .ok (escapeString e.textContent)

/-- Fuel exhaustion marker of the embedding (the JavaScript recursion has no
fuel; every theorem below either supplies adequate fuel for its concrete
input or holds for every fuel). -/
def outOfFuel : Str := "out of fuel".data

/-- The `TypeError` thrown by `restorer.custom` on an element without
children (`childrens[0].textContent` dereferences `undefined`). -/
def customTypeError : Str :=
  "TypeError: cannot read textContent of undefined".data

/-- The `TypeError` thrown by `restorer.table` on an element without any
`tr` descendant (`header.children` dereferences `undefined`). -/
def tableTypeError : Str :=
  "TypeError: cannot read children of undefined".data

/-- `depth + 1` on a possibly-`NaN` depth (`undefined + 1` is `NaN`, and
`NaN + 1` stays `NaN`; `"    ".repeat(NaN)` is empty). -/
def liftDepth : Option Nat → Option Nat
  | some d => some (d + 1)
  | none => none

/-- `"    ".repeat(depth)` of a possibly-`NaN` depth. -/
def indentOf : Option Nat → Str
  | some d => List.replicate (4 * d) ' '
  | none => []

/-- The ordered-list marker `` `${index + 1}.` `` (an `undefined` index gives
the string `"NaN."`). -/
def orderedMarker : Option Nat → Str
  | some i => (Nat.repr (i + 1)).data ++ ".".data
  | none => "NaN.".data

/-- The alignment cell written back by `restorer.table` from `th.align`. -/
def alignMarker (a : Str) : Str :=
  if a = "center".data then ":---:".data
  else if a = "right".data then "---:".data
  else if a = "left".data then ":---".data
  else "---".data

/-- The checkbox lookup `liElement.querySelector("input[type=\"checkbox\"]")`. -/
def findCheckbox (e : Element) : Option Element :=
  findDesc (fun d => d.tagName = "INPUT".data && d.inputType = some "checkbox".data)
    e.children

/-- The `TypeError` thrown when an inherited `Object.prototype` method is
called as `parser(element)`: in a strict-mode ES module `this` is
`undefined`, and these methods begin with `ToObject(this)` (or, for
`toLocaleString`, `Invoke(this, "toString")`), which throws on
`undefined`. -/
def protoThisUndefinedError : Str :=
  "TypeError: cannot convert undefined to object".data

/-- The `TypeError` thrown for `type = "__proto__"`: the inherited accessor
yields `Object.prototype` itself — truthy but not callable — so
`parser(element)` throws. -/
def protoNotFunctionError : Str :=
  "TypeError: parser is not a function".data

/-- The tail of the JavaScript lookup `restorer[type] || restorer.default`
after the object literal's own keys: `restorer` inherits from
`Object.prototype`, so a `type` naming an inherited property finds a truthy
value and does not fall through to the default handler. Called as
`parser(element)` with `this = undefined` (strict-mode ES module):
`toString` returns the string `"[object Undefined]"`; `constructor` is the
`Object` function and `Object(element)` returns the element itself — a
non-string value, recorded here as its generic string coercion (no theorem
depends on this branch); the `__proto__` accessor yields the non-callable
`Object.prototype`, which throws at the call; the remaining inherited
methods all throw converting their `undefined` `this`. Only a `type` whose
lookup yields `undefined` runs the default handler. -/
def restorerProto (ty : Option Str) (e : Element) : Except Str Str :=
  if ty = some "toString".data then .ok "[object Undefined]".data
  else if ty = some "constructor".data then .ok "[object Object]".data
  else if ty = some "__proto__".data then .error protoNotFunctionError
  else if ty = some "valueOf".data then .error protoThisUndefinedError
  else if ty = some "toLocaleString".data then .error protoThisUndefinedError
  else if ty = some "hasOwnProperty".data then .error protoThisUndefinedError
  else if ty = some "isPrototypeOf".data then .error protoThisUndefinedError
  else if ty = some "propertyIsEnumerable".data then .error protoThisUndefinedError
  else if ty = some "__defineGetter__".data then .error protoThisUndefinedError
  else if ty = some "__defineSetter__".data then .error protoThisUndefinedError
  else if ty = some "__lookupGetter__".data then .error protoThisUndefinedError
  else if ty = some "__lookupSetter__".data then .error protoThisUndefinedError
  else restorerDefault e

mutual

/-- `elementParser` from the restorer module: the JavaScript property lookup
`restorer[type] || restorer.default`, keyed by the element's `data-type`
marker. The object literal's own keys dispatch to the handlers; a type
naming a property inherited from `Object.prototype` finds a truthy value
(handled by `restorerProto`) instead of falling through; only a type whose
lookup yields `undefined` runs the default handler. -/
def elementParser (fuel : Nat) (ty : Option Str) (e : Element) : Except Str Str :=
  match fuel with
  | 0 => .error outOfFuel
  | f + 1 =>
    if ty = some "code".data then restorerCode e
    else if ty = some "blockquote".data then restorerBlockquote f e 1
    else if ty = some "custom".data then restorerCustom f e
    else if ty = some "hr".data then restorerHr e
    else if ty = some "list".data then restorerList f e (some 0)
    else if ty = some "listItem".data then restorerListItem f e none false none
    else if ty = some "heading".data then restorerHeading e
    else if ty = some "paragraph".data then restorerParagraph f e
    else if ty = some "table".data then restorerTable f e
    else if ty = some "br".data then restorerBr e
    else if ty = some "text".data then restorerText e
    else restorerProto ty e

/-- `childrenParser`: restores every child via `elementParser` and joins the
results (an exception in any child aborts the whole walk). -/
def childrenParser (fuel : Nat) (kids : List Element) : Except Str Str :=
  match fuel with
  | 0 => .error outOfFuel
  | f + 1 =>
    match kids with
    | [] => .ok []
    | child :: rest => do
      let s ← elementParser f child.datasetType child
      let r ← childrenParser f rest
      pure (s ++ r)

/-- `restorer.blockquote`: each child line is re-prefixed with `depth` copies
of `"> "`; nested blockquotes recurse with incremented depth; children are
joined by a line holding only the prefix. -/
def restorerBlockquote (fuel : Nat) (e : Element) (depth : Nat) : Except Str Str :=
  match fuel with
  | 0 => .error outOfFuel
  | f + 1 => do
    let parts ← blockquoteKids f e.children depth
    pure (joinSep ('\n' :: repStr "> ".data depth ++ ['\n']) parts)

/-- The `map` inside `restorer.blockquote`. -/
def blockquoteKids (fuel : Nat) (kids : List Element) (depth : Nat) :
    Except Str (List Str) :=
  match fuel with
  | 0 => .error outOfFuel
  | f + 1 =>
    match kids with
    | [] => .ok []
    | child :: rest => do
      let s ←
        if child.tagName = "BLOCKQUOTE".data then
          restorerBlockquote f child (depth + 1)
        else
          (elementParser f child.datasetType child).map
            fun r => repStr "> ".data depth ++ r
      let others ← blockquoteKids f rest depth
      pure (s :: others)

/-- `restorer.custom`: first child's text is the stored opening tag, the
second child's children are the inner content, the third child's text the
closing tag. On a childless element `childrens[0].textContent` throws a
`TypeError`; a missing third child is `undefined`, which string
concatenation coerces to `"undefined"`. -/
def restorerCustom (fuel : Nat) (e : Element) : Except Str Str :=
  match fuel with
  | 0 => .error outOfFuel
  | f + 1 =>
    match e.children with
    | [] => .error customTypeError
    | first :: restCh => do
      let content ←
        match restCh.head? with
        | some c => childrenParser f c.children
        | none => pure []
      let suffixTag :=
        match restCh.get? 1 with
        | some c => c.textContent
        | none => "undefined".data
      pure (first.textContent ++ content ++ suffixTag)

/-- `restorer.list`: restores each `li` child with its index and the
ordered/unordered flag from the list's tag name, joined by blank lines. -/
def restorerList (fuel : Nat) (e : Element) (depth : Option Nat) :
    Except Str Str :=
  match fuel with
  | 0 => .error outOfFuel
  | f + 1 => do
    let parts ← listKids f e.children 0 (e.tagName = "OL".data) depth
    pure (joinSep "\n\n".data parts)

/-- The indexed `map` inside `restorer.list`. -/
def listKids (fuel : Nat) (lis : List Element) (index : Nat) (isOrdered : Bool)
    (depth : Option Nat) : Except Str (List Str) :=
  match fuel with
  | 0 => .error outOfFuel
  | f + 1 =>
    match lis with
    | [] => .ok []
    | li :: rest => do
      let s ← restorerListItem f li depth isOrdered (some index)
      let others ← listKids f rest (index + 1) isOrdered depth
      pure (s :: others)

/-- `restorer.listItem`: marker (ordered index or `-`, with an optional
checkbox box), then the children's content — skipping the first child when a
checkbox is present, indenting nested sub-lists one level deeper. -/
def restorerListItem (fuel : Nat) (li : Element) (depth : Option Nat)
    (isOrdered : Bool) (index : Option Nat) : Except Str Str :=
  match fuel with
  | 0 => .error outOfFuel
  | f + 1 => do
    let checkbox := findCheckbox li
    let marker :=
      (if isOrdered then orderedMarker index else "-".data) ++
        (match checkbox with
         | some cb => " [".data ++ (if cb.checked then "x".data else " ".data) ++ "]".data
         | none => [])
    let content ← listItemKids f li.children 0 checkbox.isSome depth
    pure (indentOf depth ++ marker ++ " ".data ++ content)

/-- The indexed `map` inside `restorer.listItem`. -/
def listItemKids (fuel : Nat) (kids : List Element) (index : Nat)
    (hasCheckbox : Bool) (depth : Option Nat) : Except Str Str :=
  match fuel with
  | 0 => .error outOfFuel
  | f + 1 =>
    match kids with
    | [] => .ok []
    | child :: rest => do
      let s ←
        if hasCheckbox && index = 0 then pure ([] : Str)
        else if child.tagName = "UL".data || child.tagName = "OL".data then
          (restorerList f child (liftDepth depth)).map
            fun r => "\n\n".data ++ r
        else elementParser f child.datasetType child
      let others ← listItemKids f rest (index + 1) hasCheckbox depth
      pure (s ++ others)

/-- `restorer.paragraph`: the children's restored content. -/
def restorerParagraph (fuel : Nat) (e : Element) : Except Str Str :=
  match fuel with
  | 0 => .error outOfFuel
  | f + 1 => childrenParser f e.children

/-- `restorer.table`: header cells, a synthesized alignment row from the
`align` properties, and the body rows, pipe-joined. On a table without `tr`
descendants the destructured `header` is `undefined` and `header.children`
throws a `TypeError`. -/
def restorerTable (fuel : Nat) (e : Element) : Except Str Str :=
  match fuel with
  | 0 => .error outOfFuel
  | f + 1 =>
    match collectDesc (fun d => d.tagName = "TR".data) e.children with
    | [] => .error tableTypeError
    | headerRow :: body => do
      let hs ← tableCells f headerRow.children
      let aligns := joinSep " | ".data
        (headerRow.children.map fun th => alignMarker th.alignAttr)
      let bodyParts ← tableRowsParse f body
      pure ("| ".data ++ joinSep " | ".data hs ++ " |\n| ".data ++ aligns ++
        " |\n| ".data ++ joinSep " |\n| ".data bodyParts ++ " |".data)

/-- The header/body cell `map` inside `restorer.table`. -/
def tableCells (fuel : Nat) (cells : List Element) : Except Str (List Str) :=
  match fuel with
  | 0 => .error outOfFuel
  | f + 1 =>
    match cells with
    | [] => .ok []
    | cell :: rest => do
      let s ← childrenParser f cell.children
      let others ← tableCells f rest
      pure (s :: others)

/-- The body-row `map` inside `restorer.table`. -/
def tableRowsParse (fuel : Nat) (trs : List Element) : Except Str (List Str) :=
  match fuel with
  | 0 => .error outOfFuel
  | f + 1 =>
    match trs with
    | [] => .ok []
    | tr :: rest => do
      let cells ← tableCells f tr.children
      let others ← tableRowsParse f rest
      pure (joinSep " | ".data cells :: others)

end

example :
    elementParser 10 (some "custom".data)
      (Element.mk "SPAN".data [] [] (some "custom".data) none none none false [] []) =
      .error customTypeError := by
  simp [elementParser, restorerCustom, Element.children]

example :
    elementParser 10 (some "mystery".data)
      (Element.mk "SPAN".data [] "a<b".data (some "mystery".data) none none none
        false [] []) = .ok "a&lt;b".data := by
  simp [elementParser, restorerProto, restorerDefault, Element.textContent,
    escapeString, escapeStringGo, processBackslashes, escChar]

/-- The own property keys of the `restorer` object literal (the handler
lookup table). -/
def restorerTypes : List Str :=
  ["code".data, "blockquote".data, "custom".data, "hr".data, "list".data,
   "listItem".data, "heading".data, "paragraph".data, "table".data, "br".data,
   "text".data]

/-- The property keys `restorer` inherits from `Object.prototype` (standard
own properties of `Object.prototype`): for these the lookup
`restorer[type]` is truthy and the default handler is never reached. -/
def objectProtoKeys : List Str :=
  ["constructor".data, "hasOwnProperty".data, "isPrototypeOf".data,
   "propertyIsEnumerable".data, "toLocaleString".data, "toString".data,
   "valueOf".data, "__defineGetter__".data, "__defineSetter__".data,
   "__lookupGetter__".data, "__lookupSetter__".data, "__proto__".data]

/-- Dispatch totality on unregistered types: for any type value that is
neither an own key of the handler table nor a property inherited from
`Object.prototype` (including an absent `data-type`), the lookup yields
`undefined`, so `elementParser` runs the default handler and returns the
escaped literal text content — it never throws on such nodes. -/
theorem elementParser_unknown (fuel : Nat) (ty : Option Str) (e : Element)
    (hf : 0 < fuel) (hty : ∀ t ∈ restorerTypes, ty ≠ some t)
    (hproto : ∀ t ∈ objectProtoKeys, ty ≠ some t) :
    elementParser fuel ty e = .ok (escapeString e.textContent) := by
  obtain ⟨f, rfl⟩ : ∃ f, fuel = f + 1 := ⟨fuel - 1, by omega⟩
  rw [elementParser]
  rw [if_neg (hty "code".data (by simp [restorerTypes])),
    if_neg (hty "blockquote".data (by simp [restorerTypes])),
    if_neg (hty "custom".data (by simp [restorerTypes])),
    if_neg (hty "hr".data (by simp [restorerTypes])),
    if_neg (hty "list".data (by simp [restorerTypes])),
    if_neg (hty "listItem".data (by simp [restorerTypes])),
    if_neg (hty "heading".data (by simp [restorerTypes])),
    if_neg (hty "paragraph".data (by simp [restorerTypes])),
    if_neg (hty "table".data (by simp [restorerTypes])),
    if_neg (hty "br".data (by simp [restorerTypes])),
    if_neg (hty "text".data (by simp [restorerTypes]))]
  rw [restorerProto,
    if_neg (hproto "toString".data (by simp [objectProtoKeys])),
    if_neg (hproto "constructor".data (by simp [objectProtoKeys])),
    if_neg (hproto "__proto__".data (by simp [objectProtoKeys])),
    if_neg (hproto "valueOf".data (by simp [objectProtoKeys])),
    if_neg (hproto "toLocaleString".data (by simp [objectProtoKeys])),
    if_neg (hproto "hasOwnProperty".data (by simp [objectProtoKeys])),
    if_neg (hproto "isPrototypeOf".data (by simp [objectProtoKeys])),
    if_neg (hproto "propertyIsEnumerable".data (by simp [objectProtoKeys])),
    if_neg (hproto "__defineGetter__".data (by simp [objectProtoKeys])),
    if_neg (hproto "__defineSetter__".data (by simp [objectProtoKeys])),
    if_neg (hproto "__lookupGetter__".data (by simp [objectProtoKeys])),
    if_neg (hproto "__lookupSetter__".data (by simp [objectProtoKeys]))]
  rfl

/-! ## Claims -/

/-- C1 (counterexample): the preprocessor's soft line-wrap insertion is not
idempotent as claimed: on `"a\nb"` the first application produces
`"a  \nb"`, and the second application re-wraps the same newline (the
insertion conditions do not recognise an already-present break marker),
yielding `"a    \nb"`. -/
theorem replaceWithSoftLineWraps_not_idempotent :
    replaceWithSoftLineWraps (replaceWithSoftLineWraps "a\nb".data) ≠
      replaceWithSoftLineWraps "a\nb".data := by decide

/-- C1 (amended): `replaceWithSoftLineWraps` is idempotent only on inputs it
leaves unchanged; in particular, on any input without a newline character it
is the identity, so applying it twice equals applying it once. On an input
with a wrappable newline the second application inserts an additional
two-space marker (`"a\nb"` ↦ `"a  \nb"` ↦ `"a    \nb"`). -/
theorem replaceWithSoftLineWraps_idempotent_no_newline (t : Str)
    (h : '\n' ∉ t) :
    replaceWithSoftLineWraps (replaceWithSoftLineWraps t) =
      replaceWithSoftLineWraps t := by
  rw [replaceWithSoftLineWraps_no_newline t h, replaceWithSoftLineWraps_no_newline t h]

/-- C1 (witness): the amended idempotence at the newline-free input `"ab"`. -/
theorem replaceWithSoftLineWraps_idempotent_no_newline_witness :
    '\n' ∉ "ab".data ∧
      replaceWithSoftLineWraps (replaceWithSoftLineWraps "ab".data) =
        replaceWithSoftLineWraps "ab".data :=
  ⟨by decide, replaceWithSoftLineWraps_idempotent_no_newline "ab".data (by decide)⟩

/-- C2 (counterexample): on the lines of `"> a\n>\n> b"` the middle bare `>`
line is NOT tagged with the `[EMPTY]` placeholder — `addEmptyPlaceholder`
requires the following line to be another bare `>` line, and here the
following line is `"> b"`; the line array is returned unchanged. -/
theorem addEmptyPlaceholder_middle_line_untagged :
    addEmptyPlaceholder ["> a".data, ">".data, "> b".data] =
      ["> a".data, ">".data, "> b".data] := by decide

/-- C2 (amended): `addEmptyPlaceholder` tags a bare `>` line with the
`[EMPTY]` placeholder exactly when the next line is also a bare `>` line: on
the lines of `"> a\n>\n> b"` nothing is tagged (so that input parses without
an empty-line placeholder), while on the lines of `"> a\n>\n>\n> b"` the
first bare `>` line is tagged. -/
theorem addEmptyPlaceholder_requires_empty_successor :
    addEmptyPlaceholder ["> a".data, ">".data, "> b".data] =
        ["> a".data, ">".data, "> b".data] ∧
      addEmptyPlaceholder ["> a".data, ">".data, ">".data, "> b".data] =
        ["> a".data, ">[EMPTY]".data, ">".data, "> b".data] := by decide

/-- C3: joining the chunks returned by `splitFromEnd(doc, /\n\n/g)` with the
two-character separator `"\n\n"` reproduces `doc` exactly whenever no code
span contains a chosen double-newline boundary (the proof in fact never
needs the hypothesis: every split removes exactly one `"\n\n"` occurrence,
so reassembly is exact for every document). -/
theorem splitFromEnd_chunk_reassembly (doc : Str)
    (_hcode : ∀ p ∈ nnPositions doc 0, ∀ b ∈ codeSpans doc, ¬(b.1 ≤ p ∧ p < b.2)) :
    joinSep nn (splitFromEnd doc none) = doc :=
  splitFromEnd_reassemble doc

/-- C3 (witness): reassembly at the document `"a\n\nb"`, whose single split
boundary lies outside every (non-existent) code span. -/
theorem splitFromEnd_chunk_reassembly_witness :
    (∀ p ∈ nnPositions "a\n\nb".data 0, ∀ b ∈ codeSpans "a\n\nb".data,
        ¬(b.1 ≤ p ∧ p < b.2)) ∧
      joinSep nn (splitFromEnd "a\n\nb".data none) = "a\n\nb".data :=
  ⟨by decide, splitFromEnd_chunk_reassembly "a\n\nb".data (by decide)⟩

/-- C4: `mergeListItems` on `["* a", "* b", "plain text", "1. c"]` merges the
two adjacent unordered-list chunks with a double newline and leaves the
plain-text chunk and the ordered-list chunk untouched as separate entries. -/
theorem mergeListItems_concrete :
    mergeListItems ["* a".data, "* b".data, "plain text".data, "1. c".data] =
      ["* a\n\n* b".data, "plain text".data, "1. c".data] := by decide

/-- C5: for any capture of the table pattern (`cap[1]` header row, `cap[2]`
delimiter row, `cap[3]` optional body), if the number of header cells
produced by `splitCells` differs from the number of alignment-delimiter
columns, the table tokenizer returns no token (declines the match, so the
text falls through to default paragraph handling). -/
theorem tableTokenizer_declines_column_mismatch (c1 c2 : Str) (c3 : Option Str)
    (h : (splitCells c1 0).length ≠ (splitPipe (stripAlignChars c2)).length) :
    tableTokenizer c1 c2 c3 = none := by
  by_cases hd : tableDelimiterTest c2
  · simp [tableTokenizer, hd, h]
  · simp [tableTokenizer, hd]

/-- C5 (witness): a two-column header over a one-column delimiter row is
declined. -/
theorem tableTokenizer_declines_column_mismatch_witness :
    (splitCells "| a | b |".data 0).length ≠
        (splitPipe (stripAlignChars "|---|".data)).length ∧
      tableTokenizer "| a | b |".data "|---|".data none = none :=
  ⟨by decide,
    tableTokenizer_declines_column_mismatch "| a | b |".data "|---|".data none
      (by decide)⟩

/-- C6: in `splitCells`, a pipe preceded by an even number (including zero)
of contiguous backslashes acts as a cell delimiter, while a pipe preceded by
an odd number stays inside its cell's text: marking unescaped pipes and
splitting on space-pipe agrees with the parity-based reference splitter on
every table-row string, and on `"a\|b|c"` the full `splitCells` keeps the
escaped pipe (unescaped to `|`) inside the first cell while the unescaped
pipe splits the row. -/
theorem splitCells_escaped_pipe :
    (∀ row : Str, splitSP (markPipes row 0) = refSplit row 0) ∧
      splitCells "a\\|b|c".data 0 = ["a|b".data, "c".data] :=
  ⟨fun row => splitSP_markPipes row 0, by decide⟩

/-- C7: whenever `tokenizer.del` claims a match, the raw text begins and ends
with the same delimiter (`~` or `~~`, identical tilde count on both sides)
and the inner text is non-empty; mismatched tilde counts and empty contents
are declined. -/
theorem delTokenizer_shape :
    (∀ (src : Str) (t : DelToken), delTokenizer src = some t →
        ∃ d : Str, (d = "~".data ∨ d = "~~".data) ∧ t.text ≠ [] ∧
          t.raw = d ++ t.text ++ d) ∧
      delTokenizer "~~x~".data = none ∧ delTokenizer "~x~~".data = none ∧
        delTokenizer "~~~~".data = none := by
  refine ⟨?_, by decide, by decide, by decide⟩
  intro src t h
  rw [delTokenizer] at h
  simp only [Option.map_eq_some'] at h
  obtain ⟨⟨c1, c2⟩, hex, rfl⟩ := h
  obtain ⟨hc1, hc2⟩ := delExec_spec src c1 c2 hex
  have hd : c1 = "~".data ∨ c1 = "~~".data := by
    rcases hc1 with h1 | h1
    · exact Or.inl (by rw [h1])
    · exact Or.inr (by rw [h1])
  exact ⟨c1, hd, by simpa using hc2, rfl⟩

/-- C7 (witness): the match shape at the concrete input `"~~ab~~"`. -/
theorem delTokenizer_shape_witness :
    delTokenizer "~~ab~~".data =
        some { raw := "~~ab~~".data, text := "ab".data } ∧
      ∃ d : Str, (d = "~".data ∨ d = "~~".data) ∧
        ("ab".data : Str) ≠ [] ∧
        ("~~ab~~".data : Str) = d ++ "ab".data ++ d :=
  ⟨by decide,
    delTokenizer_shape.1 "~~ab~~".data
      { raw := "~~ab~~".data, text := "ab".data } (by decide)⟩

/-- C8 (counterexample): restoration can throw for some node shapes: the
registered `custom` handler dereferences `childrens[0].textContent`, so on a
childless element tagged `data-type="custom"` `elementParser` raises a
`TypeError` instead of degrading to literal text. -/
theorem elementParser_custom_childless_throws :
    elementParser 10 (some "custom".data)
        (Element.mk "SPAN".data [] "x".data (some "custom".data) none none none
          false [] []) =
      .error customTypeError := by
  simp [elementParser, restorerCustom, Element.children]

/-- C8 (amended): `elementParser` performs the JavaScript lookup
`restorer[type] || restorer.default`: registered types dispatch to their
handlers, and every type that is neither a registered handler name nor a
property inherited from `Object.prototype` runs the default handler,
returning the escaped literal text content without throwing — for any node
shape. Dispatch itself is not throw-free on the inherited keys: `valueOf`
(like the other inherited `Object.prototype` methods) and `__proto__` throw
a `TypeError` at dispatch, and `toString` returns `"[object Undefined]"`
rather than escaped text; registered handlers are also not total
(the `custom` handler throws on a childless element). -/
theorem elementParser_unknown_type_total :
    (∀ (fuel : Nat) (ty : Option Str) (e : Element), 0 < fuel →
        (∀ t ∈ restorerTypes, ty ≠ some t) →
        (∀ t ∈ objectProtoKeys, ty ≠ some t) →
        elementParser fuel ty e = .ok (escapeString e.textContent)) ∧
      (∀ (fuel : Nat) (e : Element), 0 < fuel →
        elementParser fuel (some "valueOf".data) e = .error protoThisUndefinedError ∧
          elementParser fuel (some "__proto__".data) e = .error protoNotFunctionError ∧
          elementParser fuel (some "toString".data) e =
            .ok "[object Undefined]".data) := by
  refine ⟨fun fuel ty e hf hty hproto =>
    elementParser_unknown fuel ty e hf hty hproto, ?_⟩
  intro fuel e hf
  obtain ⟨f, rfl⟩ : ∃ f, fuel = f + 1 := ⟨fuel - 1, by omega⟩
  refine ⟨?_, ?_, ?_⟩ <;> simp [elementParser, restorerProto]

/-- C8 (witness): the default handler at a concrete foreign node, and the
inherited `valueOf` key throwing at dispatch. -/
theorem elementParser_unknown_type_total_witness :
    (0 < 5 ∧ (∀ t ∈ restorerTypes, (some "widget".data : Option Str) ≠ some t) ∧
        ∀ t ∈ objectProtoKeys, (some "widget".data : Option Str) ≠ some t) ∧
      elementParser 5 (some "widget".data)
          (Element.mk "SPAN".data [] "a<b".data (some "widget".data) none none
            none false [] []) =
        .ok (escapeString "a<b".data) ∧
      elementParser 5 (some "valueOf".data)
          (Element.mk "SPAN".data [] "a<b".data (some "valueOf".data) none none
            none false [] []) =
        .error protoThisUndefinedError :=
  ⟨⟨by decide, by decide, by decide⟩,
    elementParser_unknown_type_total.1 5 (some "widget".data)
      (Element.mk "SPAN".data [] "a<b".data (some "widget".data) none none none
        false [] []) (by decide) (by decide) (by decide),
    (elementParser_unknown_type_total.2 5
      (Element.mk "SPAN".data [] "a<b".data (some "valueOf".data) none none none
        false [] []) (by decide)).1⟩

/-- C9: `concatTexts` with the default depth `0` and ceiling `1000` returns
normally with the concatenation of all nested `text` fields on every token
tree whose nesting depth is within the ceiling, and raises the
too-many-nested-tokens error (surfaced to the caller as an `Except.error`,
never recovered internally) exactly when the nesting depth exceeds the
ceiling. -/
theorem concatTexts_depth_guard :
    (∀ toks : List Token, listDepth toks ≤ 1000 →
        concatTexts toks 0 1000 = .ok (flattenTexts toks)) ∧
      (∀ toks : List Token, 1000 < listDepth toks →
        concatTexts toks 0 1000 = .error tooManyNested) :=
  ⟨fun toks h => concatTexts_ok toks 0 (by omega),
   fun toks h => concatTexts_err toks h⟩

/-- C9 (witness): a flat token list concatenates normally, and a chain of
1001 nested token arrays trips the guard. -/
theorem concatTexts_depth_guard_witness :
    concatTexts [Token.leaf (some "a".data)] 0 1000 = .ok "a".data ∧
      concatTexts (deepToks 1001) 0 1000 = .error tooManyNested :=
  ⟨by
    have h := concatTexts_depth_guard.1 [Token.leaf (some "a".data)]
      (by simp [listDepth])
    simpa [flattenTexts] using h,
   concatTexts_depth_guard.2 (deepToks 1001)
     (by rw [listDepth_deepToks]; omega)⟩

/-- C10: `mergeListItems` preserves chunk content and order: joining the
returned array with `"\n\n"` equals joining the input array with `"\n\n"`
for every input — no chunk text is lost, duplicated or reordered. -/
theorem mergeListItems_preserves_join (arr : List Str) :
    joinSep nn (mergeListItems arr) = joinSep nn arr := by
  cases arr with
  | nil => rfl
  | cons a rest =>
    have hne := mergeListItems_cons_ne a rest
    have hJ := mergeAux_joinTail (a :: rest) none []
    rw [List.nil_append] at hJ
    rw [show mergeListItems (a :: rest) = mergeAux (a :: rest) none [] from rfl]
      at hne ⊢
    rw [joinTail_eq_nn_joinSep _ hne, joinTail_eq_nn_joinSep (a :: rest)
      (by simp)] at hJ
    have := congrArg (List.drop 2) hJ
    simpa [nn] using this
